import Mathlib

/-!
Shallow embedding of the core of the Image-to-sound web application
(`services/audioUtils.ts`): the additive-synthesis engine
(`generateAudioFromImage`), the parameter advisor
(`analyzeImageForAudioSettings`), the radix-2 FFT spectrogram analyzer
(`computeSpectrogramData`) and the WAV encoder (`encodeWAV`), together with
theorems settling the frozen claims about them.

JavaScript numbers are modelled as `JSVal`: either NaN, a signed infinity, or
an exact real.  Finite arithmetic is modelled exactly (double rounding and
overflow are not modelled); the NaN/infinity propagation rules follow IEEE 754
as implemented by JavaScript, which matters because the source divides by
`height - 1` (0/0 = NaN for single-row images).  Negative zero is not
modelled: in every division performed by the source the operands that reach a
zero denominator are non-negative.
-/

/-- A JavaScript IEEE-754 double: NaN, a signed infinity, or a finite real. -/
inductive JSVal where
  | nan : JSVal
  | posinf : JSVal
  | neginf : JSVal
  | fin : ℝ → JSVal

namespace JSVal

/-- JavaScript unary negation. -/
noncomputable def neg : JSVal → JSVal
  | nan => nan
  | posinf => neginf
  | neginf => posinf
  | fin x => fin (-x)

/-- JavaScript addition. -/
noncomputable def add : JSVal → JSVal → JSVal
  | nan, _ => nan
  | _, nan => nan
  | posinf, neginf => nan
  | posinf, _ => posinf
  | neginf, posinf => nan
  | neginf, _ => neginf
  | fin _, posinf => posinf
  | fin _, neginf => neginf
  | fin a, fin b => fin (a + b)

/-- JavaScript subtraction (add the negation). -/
noncomputable def sub (a b : JSVal) : JSVal := add a (neg b)

/-- JavaScript multiplication. -/
noncomputable def mul : JSVal → JSVal → JSVal
  | nan, _ => nan
  | _, nan => nan
  | posinf, posinf => posinf
  | posinf, neginf => neginf
  | posinf, fin b => if b = 0 then nan else if 0 < b then posinf else neginf
  | neginf, posinf => neginf
  | neginf, neginf => posinf
  | neginf, fin b => if b = 0 then nan else if 0 < b then neginf else posinf
  | fin a, posinf => if a = 0 then nan else if 0 < a then posinf else neginf
  | fin a, neginf => if a = 0 then nan else if 0 < a then neginf else posinf
  | fin a, fin b => fin (a * b)

/-- JavaScript division (negative zero not modelled: a zero denominator with a
nonzero numerator is treated as a positive zero, which is the only case the
embedded source can reach). -/
noncomputable def div : JSVal → JSVal → JSVal
  | nan, _ => nan
  | _, nan => nan
  | posinf, posinf => nan
  | posinf, neginf => nan
  | posinf, fin b => if b < 0 then neginf else posinf
  | neginf, posinf => nan
  | neginf, neginf => nan
  | neginf, fin b => if b < 0 then posinf else neginf
  | fin _, posinf => fin 0
  | fin _, neginf => fin 0
  | fin a, fin b =>
      if b = 0 then (if a = 0 then nan else if 0 < a then posinf else neginf)
      else fin (a / b)

/-- `Math.sin`. -/
noncomputable def sin : JSVal → JSVal
  | fin x => fin (Real.sin x)
  | _ => nan

/-- `Math.asin` (NaN outside [-1, 1]). -/
noncomputable def asin : JSVal → JSVal
  | fin x => if x < -1 ∨ 1 < x then nan else fin (Real.arcsin x)
  | _ => nan

/-- `Math.floor`. -/
noncomputable def floor : JSVal → JSVal
  | nan => nan
  | posinf => posinf
  | neginf => neginf
  | fin x => fin (⌊x⌋ : ℤ)

/-- `Math.abs`. -/
noncomputable def abs : JSVal → JSVal
  | nan => nan
  | posinf => posinf
  | neginf => posinf
  | fin x => fin |x|

/-- JavaScript strict `>` comparison (false whenever NaN is involved). -/
noncomputable def gt : JSVal → JSVal → Bool
  | nan, _ => false
  | _, nan => false
  | posinf, posinf => false
  | posinf, _ => true
  | neginf, _ => false
  | fin _, posinf => false
  | fin _, neginf => true
  | fin a, fin b => decide (b < a)

/-- JavaScript `>=` comparison (false whenever NaN is involved). -/
noncomputable def ge : JSVal → JSVal → Bool
  | nan, _ => false
  | _, nan => false
  | posinf, _ => true
  | neginf, neginf => true
  | neginf, _ => false
  | fin _, posinf => false
  | fin _, neginf => true
  | fin a, fin b => decide (b ≤ a)

end JSVal

/-- The `Settings['waveShape']` enumeration from `types.ts`. -/
inductive WaveShape where
  | sin | square | sawtooth | triangle

/-- The per-row oscillator frequency table of `generateAudioFromImage`:
`Array.from({length: height}, (_, i) => maxFreq - (i / (height - 1)) * (maxFreq - minFreq))`. -/
noncomputable def freqs (height : ℕ) (minFreq maxFreq : ℝ) : List JSVal :=
  (List.range height).map fun i =>
    JSVal.sub (.fin maxFreq)
      (JSVal.mul (JSVal.div (.fin ((i : ℕ) : ℝ)) (.fin ((height : ℝ) - 1)))
        (JSVal.sub (.fin maxFreq) (.fin minFreq)))

/-- One oscillator sample of `generateAudioFromImage`'s inner `switch`,
given the already computed row frequency and the sample time. -/
noncomputable def waveSample (waveShape : WaveShape) (freq time : JSVal) : JSVal :=
  let phase := JSVal.mul (JSVal.mul (.fin (2 * Real.pi)) freq) time
  match waveShape with
  | .square => if JSVal.ge (JSVal.sin phase) (.fin 0) then .fin 1 else .fin (-1)
  | .sawtooth =>
      let phaseNormalized := JSVal.mul time freq
      JSVal.mul (.fin 2)
        (JSVal.sub phaseNormalized (JSVal.floor (JSVal.add phaseNormalized (.fin (1 / 2)))))
  | .triangle => JSVal.mul (.fin (2 / Real.pi)) (JSVal.asin (JSVal.sin phase))
  | .sin => JSVal.sin phase

/-- The inner row loop of `generateAudioFromImage`: the additive sample at
column `col` and in-column index `t_idx` (`time = t_idx / sampleRate`; rows
with non-positive amplitude are skipped). -/
noncomputable def columnSample (imageArray : List (List ℝ)) (frs : List JSVal)
    (waveShape : WaveShape) (sampleRate : ℝ) (col t_idx : ℕ) : JSVal :=
  let time := JSVal.div (.fin t_idx) (.fin sampleRate)
  (List.range imageArray.length).foldl
    (fun sample row =>
      let amplitude := (imageArray.getD row []).getD col 0
      if 0 < amplitude then
        JSVal.add sample
          (JSVal.mul (.fin amplitude) (waveSample waveShape (frs.getD row .nan) time))
      else sample)
    (.fin 0)

/-- The raw (pre-normalization) signal filled by `generateAudioFromImage`'s
column/sample loops, in the source's `col * samplesPerColumn + t_idx` order. -/
noncomputable def rawSignal (imageArray : List (List ℝ))
    (sampleRate durationPerColumn minFreq maxFreq : ℝ)
    (waveShape : WaveShape) : List JSVal :=
  let height := imageArray.length
  let width := (imageArray.headD []).length
  let samplesPerColumn := (⌊sampleRate * durationPerColumn⌋).toNat
  let frs := freqs height minFreq maxFreq
  (List.range width).flatMap fun col =>
    (List.range samplesPerColumn).map fun t_idx =>
      columnSample imageArray frs waveShape sampleRate col t_idx

/-- The running `maxAmplitude` computation of `generateAudioFromImage`
(`if (Math.abs(sample) > maxAmplitude) maxAmplitude = Math.abs(sample)`,
starting from 0). -/
noncomputable def maxAbsJS (l : List JSVal) : JSVal :=
  l.foldl (fun m s => if JSVal.gt (JSVal.abs s) m then JSVal.abs s else m) (.fin 0)

/-- `generateAudioFromImage` from `services/audioUtils.ts`: empty-input early
return, additive synthesis, then peak normalization when the maximum
amplitude is positive. -/
noncomputable def generateAudioFromImage (imageArray : List (List ℝ))
    (sampleRate durationPerColumn minFreq maxFreq : ℝ)
    (waveShape : WaveShape) : List JSVal :=
  let height := imageArray.length
  let width := (imageArray.headD []).length
  if width = 0 ∨ height = 0 then []
  else
    let audio := rawSignal imageArray sampleRate durationPerColumn minFreq maxFreq waveShape
    let maxAmplitude := maxAbsJS audio
    if JSVal.gt maxAmplitude (.fin 0) then
      audio.map fun s => JSVal.div s maxAmplitude
    else audio

/-- The settings patch produced by `analyzeImageForAudioSettings`:
`duration` after `parseFloat(x.toFixed(1))`, and the two frequencies after
`parseInt(x.toFixed(0))`. -/
structure AdvisorPatch where
  duration : ℝ
  minFreq : ℤ
  maxFreq : ℤ

/-- `parseFloat(x.toFixed(1))` for a positive JavaScript number: round to the
nearest tenth (`round` rounds half up, matching `toFixed` on the positive
values this program produces). -/
noncomputable def jsToFixed1 (x : ℝ) : ℝ := (round (10 * x) : ℤ) / 10

/-- `analyzeImageForAudioSettings` from `services/audioUtils.ts`; `none`
models the empty `newSettings` patch returned for an empty matrix
(`parseInt(x.toFixed(0))` on the positive frequencies is `round`). -/
noncomputable def analyzeImageForAudioSettings (imageArray : List (List ℝ)) :
    Option AdvisorPatch :=
  if imageArray.length = 0 ∨ (imageArray.headD []).length = 0 then none
  else
    let flatValues := imageArray.flatten
    let sum := flatValues.foldl (· + ·) (0 : ℝ)
    let brightness := sum / (flatValues.length : ℝ)
    let mean := brightness
    let variance :=
      flatValues.foldl (fun a b => a + (b - mean) ^ 2) (0 : ℝ) /
        (flatValues.length : ℝ)
    let contrast := Real.sqrt variance
    let duration := 3.0 + brightness * 9.0
    let freqRange := (2000 : ℝ) + contrast * 30000
    let minFreq := max (20 : ℝ) (400 - contrast * 700)
    let maxFreq := min (20000 : ℝ) (minFreq + freqRange)
    some ⟨jsToFixed1 duration, round minFreq, round maxFreq⟩

/-- The complex numbers used by the FFT (`type Complex = { re, im }`). -/
structure Cpx where
  re : ℝ
  im : ℝ

/-- `x.filter((_, i) => i % 2 === 0)`: the even-indexed elements. -/
def evens : List α → List α
  | [] => []
  | [a] => [a]
  | a :: _ :: rest => a :: evens rest

/-- `x.filter((_, i) => i % 2 !== 0)`: the odd-indexed elements. -/
def odds : List α → List α
  | [] => []
  | [_] => []
  | _ :: b :: rest => b :: odds rest

theorem evens_length : ∀ l : List α, (evens l).length = (l.length + 1) / 2
  | [] => by simp [evens]
  | [a] => by simp [evens]
  | _ :: _ :: rest => by
    simp only [evens, List.length_cons, evens_length rest]
    omega

theorem odds_length : ∀ l : List α, (odds l).length = l.length / 2
  | [] => by simp [odds]
  | [_] => by simp [odds]
  | _ :: _ :: rest => by
    simp only [odds, List.length_cons, odds_length rest]
    omega

/-- The twiddle-multiplied odd term `t` of the FFT butterfly:
`angle = -2πk/N`, `t = (cos·re - sin·im, cos·im + sin·re)`. -/
noncomputable def twiddle (N k : ℕ) (c : Cpx) : Cpx :=
  let angle := -2 * Real.pi * k / N
  ⟨Real.cos angle * c.re - Real.sin angle * c.im,
   Real.cos angle * c.im + Real.sin angle * c.re⟩

/-- `fft_radix2` from `services/audioUtils.ts`: recursive radix-2
Cooley-Tukey FFT; `result[k] = even[k] + t`, `result[k + N/2] = even[k] - t`. -/
noncomputable def fft_radix2 (x : List Cpx) : List Cpx :=
  if x.length ≤ 1 then x
  else
    let N := x.length
    let even := fft_radix2 (evens x)
    let odd := fft_radix2 (odds x)
    ((List.range (N / 2)).map fun k =>
      let t := twiddle N k (odd.getD k ⟨0, 0⟩)
      let e := even.getD k ⟨0, 0⟩
      (⟨e.re + t.re, e.im + t.im⟩ : Cpx)) ++
    ((List.range (N / 2)).map fun k =>
      let t := twiddle N k (odd.getD k ⟨0, 0⟩)
      let e := even.getD k ⟨0, 0⟩
      (⟨e.re - t.re, e.im - t.im⟩ : Cpx))
termination_by x.length
decreasing_by
  · have h1 := evens_length x; omega
  · have h2 := odds_length x; omega

/-- The Hann window coefficient `0.5 * (1 - cos(2πi/(fftSize-1)))`.  (The
subtraction is JavaScript number subtraction, i.e. over ℝ.) -/
noncomputable def hannWindow (fftSize i : ℕ) : ℝ :=
  0.5 * (1 - Real.cos (2 * Real.pi * i / ((fftSize : ℝ) - 1)))

/-- One dB-magnitude spectrogram row of `computeSpectrogramData`: window the
frame, FFT, keep the first `fftSize / 2` magnitudes, convert to decibels. -/
noncomputable def dbRow (fftSize : ℕ) (frame : List ℝ) : List ℝ :=
  let windowedFrame := (List.range fftSize).map fun j =>
    (⟨frame.getD j 0 * hannWindow fftSize j, 0⟩ : Cpx)
  let fftResult := fft_radix2 windowedFrame
  (fftResult.take (fftSize / 2)).map fun c =>
    20 * Real.logb 10 (Real.sqrt (c.re * c.re + c.im * c.im) + 1e-10)

/-- The frame-major dB matrix built by `computeSpectrogramData`'s loop:
`numFrames = Math.floor((length - fftSize) / hopLength) + 1` frames, a frame
starting at `i * hopLength` being skipped (`continue`) when the slice is
shorter than `fftSize`. -/
noncomputable def spectrogramFrames (audioBuffer : List ℝ) (fftSize : ℕ) :
    List (List ℝ) :=
  let hopLength := fftSize / 4
  let numFrames : ℤ := ⌊((audioBuffer.length : ℝ) - fftSize) / hopLength⌋ + 1
  (List.range numFrames.toNat).filterMap fun i =>
    let start := i * hopLength
    let frame := (audioBuffer.drop start).take fftSize
    if frame.length < fftSize then none else some (dbRow fftSize frame)

/-- The frame time labels pushed by the same loop (`start / 44100`). -/
noncomputable def spectrogramTimes (audioBuffer : List ℝ) (fftSize : ℕ) :
    List ℝ :=
  let hopLength := fftSize / 4
  let numFrames : ℤ := ⌊((audioBuffer.length : ℝ) - fftSize) / hopLength⌋ + 1
  (List.range numFrames.toNat).filterMap fun i =>
    let start := i * hopLength
    let frame := (audioBuffer.drop start).take fftSize
    if frame.length < fftSize then none else some ((start : ℝ) / 44100)

/-- `computeSpectrogramData` from `services/audioUtils.ts`: frame-major
matrix, transposed via `spectrogram[0].map((_, colIndex) => ...)` and then
reversed, plus the frequency and time axis labels. -/
noncomputable def computeSpectrogramData (audioBuffer : List ℝ)
    (fftSize : ℕ) : List (List ℝ) × List ℝ × List ℝ :=
  let spectrogram := spectrogramFrames audioBuffer fftSize
  let frequencies := (List.range (fftSize / 2)).map fun i =>
    (i : ℝ) * 44100 / fftSize
  let transposed :=
    match spectrogram with
    | [] => []
    | r0 :: _ => (List.range r0.length).map fun colIndex =>
        spectrogram.map fun (row : List ℝ) => row.getD colIndex 0
  (transposed.reverse, frequencies, spectrogramTimes audioBuffer fftSize)

/-- Truncation toward zero, as applied by `DataView.setInt16` to a
JavaScript number. -/
noncomputable def jsTrunc (x : ℝ) : ℤ := if x < 0 then ⌈x⌉ else ⌊x⌋

/-- The per-sample quantization of `floatTo16BitPCM`: clamp to [-1, 1] with
`Math.max(-1, Math.min(1, s))`, then `s < 0 ? s * 0x8000 : s * 0x7FFF`,
truncated to an integer by `setInt16`. -/
noncomputable def quantize (sample : ℝ) : ℤ :=
  let s := max (-1) (min 1 sample)
  if s < 0 then jsTrunc (s * 32768) else jsTrunc (s * 32767)

/-- The two little-endian bytes `setInt16(offset, v, true)` stores: the
16-bit two's complement of the quantized value. -/
noncomputable def sampleBytes (sample : ℝ) : List ℕ :=
  let v := (quantize sample % 65536).toNat
  [v % 256, v / 256]

/-- `setUint16(offset, n, true)`: two little-endian bytes, wrapping mod 2^16. -/
def u16le (n : ℕ) : List ℕ := [n % 256, n / 256 % 256]

/-- `setUint32(offset, n, true)`: four little-endian bytes, wrapping mod 2^32. -/
def u32le (n : ℕ) : List ℕ :=
  [n % 256, n / 256 % 256, n / 65536 % 256, n / 16777216 % 256]

/-- `encodeWAV` from `services/audioUtils.ts` as the byte sequence of the
produced Blob: ASCII `RIFF`, ChunkSize `36 + 2n`, `WAVE`, `fmt ` of size 16,
PCM format 1, mono, sample rate, byte rate `2 * rate`, block align 2, 16 bits
per sample, `data` of size `2n`, then the quantized samples. -/
noncomputable def encodeWAV (samples : List ℝ) (sampleRate : ℕ) : List ℕ :=
  [82, 73, 70, 70] ++ u32le (36 + samples.length * 2) ++
  [87, 65, 86, 69] ++ [102, 109, 116, 32] ++
  u32le 16 ++ u16le 1 ++ u16le 1 ++
  u32le sampleRate ++ u32le (sampleRate * 2) ++
  u16le 2 ++ u16le 16 ++
  [100, 97, 116, 97] ++ u32le (samples.length * 2) ++
  samples.flatMap sampleBytes

/-- Reassemble a signed 16-bit value from its two little-endian bytes. -/
def toInt16 (lo hi : ℕ) : ℤ :=
  let v := lo + 256 * hi
  if v < 32768 then (v : ℤ) else (v : ℤ) - 65536

/-- Modelled from the spec: the repository ships no WAV decoder, but §4.5
requires one for test round-trips ("parse the same layout back into
(sampleRate, AudioSignal) with samples reconstructed as `int16 / 32768` or
`/32767` matching the encode's scaling").  This reconstructs by the same
asymmetric scaling the encoder uses: negative values divide by 32768,
non-negative by 32767. -/
noncomputable def decodeSamples : List ℕ → List ℝ
  | lo :: hi :: rest =>
      (let q := toInt16 lo hi
       if q < 0 then (q : ℝ) / 32768 else (q : ℝ) / 32767) :: decodeSamples rest
  | _ => []

/-- Modelled from the spec: the WAV parser required by §4.5 for round-trip
testing ("Decoding a non-WAV or truncated buffer fails with a format error,
never a crash", modelled as `none`).  It checks the §6 layout: the `RIFF`,
`WAVE`, `fmt ` and `data` tags, Subchunk1Size 16, PCM format 1, one channel,
16 bits per sample and a Subchunk2Size matching the remaining data, then
reads the little-endian sample rate and the 16-bit samples. -/
noncomputable def decodeWAV : List ℕ → Option (ℕ × List ℝ)
  | 82 :: 73 :: 70 :: 70 :: _ :: _ :: _ :: _ ::
    87 :: 65 :: 86 :: 69 :: 102 :: 109 :: 116 :: 32 ::
    16 :: 0 :: 0 :: 0 :: 1 :: 0 :: 1 :: 0 ::
    r0 :: r1 :: r2 :: r3 :: _ :: _ :: _ :: _ ::
    2 :: 0 :: 16 :: 0 :: 100 :: 97 :: 116 :: 97 ::
    s0 :: s1 :: s2 :: s3 :: rest =>
      if s0 + 256 * s1 + 65536 * s2 + 16777216 * s3 = rest.length ∧
          rest.length % 2 = 0 then
        some (r0 + 256 * r1 + 65536 * r2 + 16777216 * r3, decodeSamples rest)
      else none
  | _ => none

/-- C7 counterexample: for a single-row matrix (H = 1) the source computes
`i / (height - 1) = 0 / 0 = NaN`, so the frequency assigned to row 0 is NaN
and not `maxFreq` (shown here at `minFreq = 200`, `maxFreq = 8000`). -/
theorem C7_single_row_nan_counterexample :
    freqs 1 200 8000 = [JSVal.nan] ∧ JSVal.nan ≠ JSVal.fin 8000 := by
  constructor
  · rw [freqs, show List.range 1 = [0] from rfl]
    simp only [List.map_cons, List.map_nil, Nat.cast_zero]
    norm_num [JSVal.div, JSVal.mul, JSVal.sub, JSVal.neg, JSVal.add]
  · intro h
    exact JSVal.noConfusion h

/-- C7 (amended): for H > 1 the oscillator frequency of row r equals
`maxFreq - (r / (H - 1)) * (maxFreq - minFreq)`; for H = 1 the code's
division 0/0 makes the single row's frequency NaN, not `maxFreq`. -/
theorem C7_freq_mapping (H r : ℕ) (minFreq maxFreq : ℝ)
    (hH : 2 ≤ H) (hr : r < H) :
    (freqs H minFreq maxFreq).getD r .nan
      = .fin (maxFreq - ((r : ℝ) / ((H : ℝ) - 1)) * (maxFreq - minFreq)) ∧
    freqs 1 minFreq maxFreq = [JSVal.nan] := by
  have hne : ((H : ℝ) - 1) ≠ 0 := by
    have h2 : (2 : ℝ) ≤ (H : ℝ) := by exact_mod_cast hH
    linarith
  constructor
  · have hlen : r < (freqs H minFreq maxFreq).length := by
      simp only [freqs, List.length_map, List.length_range]
      exact hr
    rw [List.getD_eq_getElem _ _ hlen]
    simp only [freqs, List.getElem_map, List.getElem_range]
    simp only [JSVal.sub, JSVal.neg, JSVal.div, hne, if_false, JSVal.mul,
      JSVal.add]
    congr 1
  · rw [freqs, show List.range 1 = [0] from rfl]
    simp only [List.map_cons, List.map_nil, Nat.cast_zero]
    norm_num [JSVal.div, JSVal.mul, JSVal.sub, JSVal.neg, JSVal.add]

/-- C7 witness: at H = 2, row 1 and range [100, 200] the frequency is the
bottom frequency 100. -/
theorem C7_freq_mapping_witness :
    (freqs 2 100 200).getD 1 JSVal.nan = JSVal.fin 100 := by
  have h := (C7_freq_mapping 2 1 100 200 (by norm_num) (by norm_num)).1
  norm_num at h
  exact h

theorem rawSignal_length (imageArray : List (List ℝ))
    (sampleRate durationPerColumn minFreq maxFreq : ℝ) (waveShape : WaveShape) :
    (rawSignal imageArray sampleRate durationPerColumn minFreq maxFreq
        waveShape).length
      = (imageArray.headD []).length *
          (⌊sampleRate * durationPerColumn⌋).toNat := by
  simp [rawSignal, List.length_flatMap, Function.comp_def, List.map_const',
    List.sum_replicate, smul_eq_mul]

/-- C2: the generated signal has length `W × ⌊sampleRate × durationPerColumn⌋`
(`W` being the length of row 0, which is the matrix width for a well-formed
matrix), and an empty matrix (W = 0 or H = 0) yields the zero-length signal
rather than an error.  The non-negativity hypotheses record that the
`Math.floor` count is only a valid array length for non-negative settings. -/
theorem C2_signal_length (imageArray : List (List ℝ))
    (sampleRate durationPerColumn minFreq maxFreq : ℝ) (waveShape : WaveShape) :
    (0 ≤ sampleRate → 0 ≤ durationPerColumn →
      (generateAudioFromImage imageArray sampleRate durationPerColumn minFreq
          maxFreq waveShape).length
        = (imageArray.headD []).length *
            (⌊sampleRate * durationPerColumn⌋).toNat) ∧
    ((imageArray.headD []).length = 0 ∨ imageArray.length = 0 →
      generateAudioFromImage imageArray sampleRate durationPerColumn minFreq
          maxFreq waveShape = []) := by
  have hraw := rawSignal_length imageArray sampleRate durationPerColumn
    minFreq maxFreq waveShape
  constructor
  · intro _ _
    simp only [generateAudioFromImage]
    split
    · next hempty =>
      have hw : (imageArray.headD []).length = 0 := by
        rcases hempty with h | h
        · exact h
        · have : imageArray = [] := List.length_eq_zero.mp h
          simp [this]
      simp only [List.length_nil, hw, Nat.zero_mul]
    · split
      · simpa using hraw
      · exact hraw
  · intro h
    simp only [generateAudioFromImage]
    rw [if_pos h]

/-- C2 witness: a 1×1 matrix at sample rate 2 and 1.5 s per column yields
3 samples, and the empty matrix yields the empty signal. -/
theorem C2_signal_length_witness :
    (generateAudioFromImage [[(1 : ℝ)]] 2 1.5 1 2 WaveShape.square).length = 3 ∧
    generateAudioFromImage ([] : List (List ℝ)) 2 1.5 1 2 WaveShape.square
      = [] := by
  constructor
  · have h := (C2_signal_length [[(1 : ℝ)]] 2 1.5 1 2 WaveShape.square).1
      (by norm_num) (by norm_num)
    rw [h]
    norm_num
    decide
  · exact (C2_signal_length [] 2 1.5 1 2 WaveShape.square).2 (Or.inr rfl)

theorem foldl_fixed {α : Type _} {β : Type _} {f : α → β → α} {init : α} :
    ∀ l : List β, (∀ b ∈ l, f init b = init) → l.foldl f init = init
  | [] => fun _ => rfl
  | b :: rest => fun h => by
    rw [List.foldl_cons, h b (List.mem_cons_self b rest)]
    exact foldl_fixed rest fun x hx => h x (List.mem_cons_of_mem _ hx)

theorem cell_getD_zero (A : List (List ℝ)) (hz : ∀ row ∈ A, ∀ x ∈ row, x = 0)
    (r c : ℕ) : (A.getD r []).getD c 0 = 0 := by
  by_cases hr : r < A.length
  · have hmem : A.getD r [] ∈ A := by
      rw [List.getD_eq_getElem _ _ hr]
      exact List.getElem_mem hr
    by_cases hc : c < (A.getD r []).length
    · rw [List.getD_eq_getElem _ _ hc]
      exact hz _ hmem _ (List.getElem_mem hc)
    · exact List.getD_eq_default _ _ (not_lt.mp hc)
  · rw [List.getD_eq_default _ _ (not_lt.mp hr)]
    exact List.getD_eq_default _ _ (Nat.zero_le c)

theorem columnSample_all_zero (A : List (List ℝ)) (frs : List JSVal)
    (waveShape : WaveShape) (sampleRate : ℝ) (col t_idx : ℕ)
    (hz : ∀ row ∈ A, ∀ x ∈ row, x = 0) :
    columnSample A frs waveShape sampleRate col t_idx = .fin 0 := by
  simp only [columnSample]
  refine foldl_fixed _ fun row _ => ?_
  rw [cell_getD_zero A hz row col]
  simp

theorem maxAbsJS_all_zero (l : List JSVal) (h : ∀ s ∈ l, s = .fin 0) :
    maxAbsJS l = .fin 0 := by
  simp only [maxAbsJS]
  refine foldl_fixed _ fun s hs => ?_
  rw [h s hs]
  simp [JSVal.abs, JSVal.gt]

/-- C9: for an all-zero LuminanceMatrix the generated signal is identically
`fin 0` — every row is skipped by the amplitude guard, the running maximum
stays 0, and the normalization division is not executed (no NaN, no division
by zero). -/
theorem C9_all_zero_silence (imageArray : List (List ℝ))
    (sampleRate durationPerColumn minFreq maxFreq : ℝ) (waveShape : WaveShape)
    (hz : ∀ row ∈ imageArray, ∀ x ∈ row, x = 0) :
    generateAudioFromImage imageArray sampleRate durationPerColumn minFreq
        maxFreq waveShape
      = List.replicate
          (generateAudioFromImage imageArray sampleRate durationPerColumn
              minFreq maxFreq waveShape).length (JSVal.fin 0) := by
  have hrawmem : ∀ s ∈ rawSignal imageArray sampleRate durationPerColumn
      minFreq maxFreq waveShape, s = JSVal.fin 0 := by
    intro s hs
    simp only [rawSignal, List.mem_flatMap, List.mem_map, List.mem_range] at hs
    obtain ⟨col, -, t_idx, -, rfl⟩ := hs
    exact columnSample_all_zero _ _ _ _ _ _ hz
  simp only [generateAudioFromImage]
  split
  · simp
  · rw [maxAbsJS_all_zero _ hrawmem]
    have hgt : JSVal.gt (JSVal.fin 0) (JSVal.fin 0) = false := by
      simp [JSVal.gt]
    rw [if_neg (by rw [hgt]; exact Bool.false_ne_true)]
    exact List.eq_replicate_iff.mpr ⟨rfl, hrawmem⟩

/-- C9 witness: the 2×1 zero matrix produces a signal that is identically 0. -/
theorem C9_all_zero_silence_witness :
    generateAudioFromImage [[(0 : ℝ)], [0]] 1 1 1 2 WaveShape.sin
      = List.replicate
          (generateAudioFromImage [[(0 : ℝ)], [0]] 1 1 1 2
              WaveShape.sin).length (JSVal.fin 0) :=
  C9_all_zero_silence [[(0 : ℝ)], [0]] 1 1 1 2 WaveShape.sin (by
    intro row hrow x hx
    simp only [List.mem_cons, List.not_mem_nil, or_false] at hrow
    rcases hrow with rfl | rfl <;> simpa using hx)

theorem flatten_replicate_replicate {x : ℝ} : ∀ H W : ℕ,
    (List.replicate H (List.replicate W x)).flatten
      = List.replicate (H * W) x
  | 0, W => by simp
  | H + 1, W => by
    rw [List.replicate_succ, List.flatten_cons,
      flatten_replicate_replicate H W, ← List.replicate_add]
    congr 1
    ring

theorem foldl_add_replicate (x : ℝ) : ∀ (n : ℕ) (c : ℝ),
    (List.replicate n x).foldl (· + ·) c = c + n * x
  | 0, c => by simp
  | n + 1, c => by
    rw [List.replicate_succ, List.foldl_cons, foldl_add_replicate x n (c + x)]
    push_cast
    ring

theorem foldl_sq_dev_replicate (m : ℝ) : ∀ (n : ℕ) (c : ℝ),
    (List.replicate n m).foldl (fun a b => a + (b - m) ^ 2) c = c
  | 0, c => by simp
  | n + 1, c => by
    rw [List.replicate_succ, List.foldl_cons]
    simpa using foldl_sq_dev_replicate m n c

/-- C8 counterexample: on the uniform 2×2 matrix of 0.5 the advisor returns
`maxFreq = 2400` (`min(20000, 400 + (2000 + 0·30000))`), not the claimed
6400. -/
theorem C8_uniform_counterexample :
    analyzeImageForAudioSettings [[(1 / 2 : ℝ), 1 / 2], [1 / 2, 1 / 2]]
      = some ⟨7.5, 400, 2400⟩ ∧ (2400 : ℤ) ≠ 6400 := by
  constructor
  · norm_num [analyzeImageForAudioSettings, jsToFixed1, round_eq,
      Real.sqrt_zero]
  · decide

/-- C8 (amended): on a uniform matrix of value 0.5 (any positive size) the
advisor computes brightness 0.5 and contrast 0 and returns exactly
duration = 7.5, minFreq = 400 and maxFreq = 2400 (the spec's stated formulas
give `min(20000, 400 + 2000) = 2400`, not 6400). -/
theorem C8_uniform_mid_gray (H W : ℕ) (hH : 0 < H) (hW : 0 < W) :
    analyzeImageForAudioSettings
        (List.replicate H (List.replicate W (1 / 2 : ℝ)))
      = some ⟨7.5, 400, 2400⟩ := by
  have hnHW : ((H * W : ℕ) : ℝ) ≠ 0 := by
    have : 0 < H * W := Nat.mul_pos hH hW
    exact_mod_cast this.ne'
  have hhead : (List.replicate H (List.replicate W (1 / 2 : ℝ))).headD []
      = List.replicate W (1 / 2 : ℝ) := by
    obtain ⟨H', rfl⟩ := Nat.exists_eq_succ_of_ne_zero hH.ne'
    rw [List.replicate_succ]
    rfl
  have hbr : (0 + ((H * W : ℕ) : ℝ) * (1 / 2)) / ((H * W : ℕ) : ℝ)
      = 1 / 2 := by
    field_simp
    ring
  simp only [analyzeImageForAudioSettings, hhead,
    flatten_replicate_replicate, List.length_replicate,
    foldl_add_replicate, hbr, foldl_sq_dev_replicate]
  rw [if_neg (by push_neg; exact ⟨hH.ne', hW.ne'⟩)]
  norm_num [jsToFixed1, round_eq, Real.sqrt_zero]

/-- C8 witness: the amended result at the 1×1 uniform matrix. -/
theorem C8_uniform_mid_gray_witness :
    analyzeImageForAudioSettings [[(1 / 2 : ℝ)]] = some ⟨7.5, 400, 2400⟩ := by
  have h := C8_uniform_mid_gray 1 1 (by norm_num) (by norm_num)
  simpa using h

theorem round_mono_of_le {a b : ℝ} (h : a ≤ b) : round a ≤ round b := by
  rw [round_eq, round_eq]
  exact Int.floor_le_floor (by linarith)

theorem jsToFixed1_bounds {d : ℝ} (h3 : 3 ≤ d) (h12 : d ≤ 12) :
    3 ≤ jsToFixed1 d ∧ jsToFixed1 d ≤ 12 := by
  have h30 : (30 : ℤ) ≤ round (10 * d) := by
    have := round_mono_of_le (show (30 : ℝ) ≤ 10 * d by linarith)
    rwa [show round (30 : ℝ) = 30 by rw [round_eq]; norm_num] at this
  have h120 : round (10 * d) ≤ (120 : ℤ) := by
    have := round_mono_of_le (show 10 * d ≤ (120 : ℝ) by linarith)
    rwa [show round (120 : ℝ) = 120 by rw [round_eq]; norm_num] at this
  have h30' : (30 : ℝ) ≤ (round (10 * d) : ℤ) := by exact_mod_cast h30
  have h120' : ((round (10 * d) : ℤ) : ℝ) ≤ 120 := by exact_mod_cast h120
  rw [jsToFixed1]
  constructor <;> [linarith; linarith]

theorem advisor_freq_bounds {c : ℝ} (hc : 0 ≤ c) :
    20 ≤ round (max (20 : ℝ) (400 - c * 700)) ∧
    round (max (20 : ℝ) (400 - c * 700))
      ≤ round (min (20000 : ℝ)
          (max (20 : ℝ) (400 - c * 700) + (2000 + c * 30000))) ∧
    round (min (20000 : ℝ)
        (max (20 : ℝ) (400 - c * 700) + (2000 + c * 30000))) ≤ 20000 := by
  have h20 : (20 : ℝ) ≤ max (20 : ℝ) (400 - c * 700) := le_max_left _ _
  have hm400 : max (20 : ℝ) (400 - c * 700) ≤ 400 :=
    max_le (by norm_num) (by linarith)
  have hle : max (20 : ℝ) (400 - c * 700)
      ≤ min (20000 : ℝ) (max (20 : ℝ) (400 - c * 700) + (2000 + c * 30000)) :=
    le_min (by linarith) (by linarith)
  have hcap : min (20000 : ℝ)
      (max (20 : ℝ) (400 - c * 700) + (2000 + c * 30000)) ≤ 20000 :=
    min_le_left _ _
  refine ⟨?_, round_mono_of_le hle, ?_⟩
  · have := round_mono_of_le h20
    rwa [show round (20 : ℝ) = 20 by rw [round_eq]; norm_num] at this
  · have := round_mono_of_le hcap
    rwa [show round (20000 : ℝ) = 20000 by rw [round_eq]; norm_num] at this

theorem foldl_add_bounds : ∀ (l : List ℝ) (c : ℝ),
    (∀ x ∈ l, 0 ≤ x ∧ x ≤ 1) →
    c ≤ l.foldl (· + ·) c ∧ l.foldl (· + ·) c ≤ c + l.length
  | [], c => fun _ => by simp
  | x :: rest, c => fun h => by
    rw [List.foldl_cons]
    obtain ⟨hx0, hx1⟩ := h x (List.mem_cons_self x rest)
    obtain ⟨ih1, ih2⟩ := foldl_add_bounds rest (c + x)
      fun y hy => h y (List.mem_cons_of_mem _ hy)
    constructor
    · linarith
    · simp only [List.length_cons]
      push_cast
      linarith

/-- C10: on any non-empty matrix with all cells in [0, 1] the advisor's patch
satisfies `20 ≤ minFreq ≤ maxFreq ≤ 20000` and `3 ≤ duration ≤ 12`, so
applying it preserves the `minFreq ≤ maxFreq` settings invariant. -/
theorem C10_advisor_patch_bounds (imageArray : List (List ℝ))
    (hne : imageArray ≠ []) (hW : (imageArray.headD []).length ≠ 0)
    (hcells : ∀ row ∈ imageArray, ∀ x ∈ row, 0 ≤ x ∧ x ≤ 1) :
    (analyzeImageForAudioSettings imageArray).isSome = true ∧
    20 ≤ ((analyzeImageForAudioSettings imageArray).getD ⟨0, 0, 0⟩).minFreq ∧
    ((analyzeImageForAudioSettings imageArray).getD ⟨0, 0, 0⟩).minFreq
      ≤ ((analyzeImageForAudioSettings imageArray).getD ⟨0, 0, 0⟩).maxFreq ∧
    ((analyzeImageForAudioSettings imageArray).getD ⟨0, 0, 0⟩).maxFreq
      ≤ 20000 ∧
    (3 : ℝ)
      ≤ ((analyzeImageForAudioSettings imageArray).getD ⟨0, 0, 0⟩).duration ∧
    ((analyzeImageForAudioSettings imageArray).getD ⟨0, 0, 0⟩).duration
      ≤ 12 := by
  have hflatmem : ∀ x ∈ imageArray.flatten, 0 ≤ x ∧ x ≤ 1 := by
    intro x hx
    obtain ⟨row, hrow, hxrow⟩ := List.mem_flatten.mp hx
    exact hcells row hrow x hxrow
  have hflatlen : 0 < (imageArray.flatten.length : ℝ) := by
    obtain ⟨r0, rest, rfl⟩ := List.exists_cons_of_ne_nil hne
    have : r0.length ≠ 0 := hW
    have h0 : 0 < (r0 :: rest).flatten.length := by
      rw [List.flatten_cons, List.length_append]
      omega
    exact_mod_cast h0
  obtain ⟨hsum0, hsum1⟩ :=
    foldl_add_bounds imageArray.flatten 0 hflatmem
  have hb0 : 0 ≤ imageArray.flatten.foldl (· + ·) 0 /
      (imageArray.flatten.length : ℝ) :=
    div_nonneg (by linarith) (by linarith)
  have hb1 : imageArray.flatten.foldl (· + ·) 0 /
      (imageArray.flatten.length : ℝ) ≤ 1 := by
    rw [div_le_one hflatlen]
    linarith
  have hcond : ¬(imageArray.length = 0 ∨ (imageArray.headD []).length = 0) := by
    push_neg
    exact ⟨fun h => hne (List.length_eq_zero.mp h), hW⟩
  simp only [analyzeImageForAudioSettings]
  rw [if_neg hcond]
  simp only [Option.isSome_some, Option.getD_some]
  have hc : (0 : ℝ) ≤ Real.sqrt
      (imageArray.flatten.foldl
          (fun a b => a + (b - imageArray.flatten.foldl (· + ·) 0 /
            (imageArray.flatten.length : ℝ)) ^ 2) 0 /
        (imageArray.flatten.length : ℝ)) := Real.sqrt_nonneg _
  obtain ⟨hf1, hf2, hf3⟩ := advisor_freq_bounds hc
  obtain ⟨hd1, hd2⟩ := jsToFixed1_bounds
    (d := 3.0 + imageArray.flatten.foldl (· + ·) 0 /
      (imageArray.flatten.length : ℝ) * 9.0)
    (by linarith) (by linarith)
  exact ⟨trivial, hf1, hf2, hf3, hd1, hd2⟩

/-- C10 witness: the advisor patch for the 2×1 matrix [[0], [1]] is within
bounds. -/
theorem C10_advisor_patch_bounds_witness :
    (analyzeImageForAudioSettings [[(0 : ℝ)], [1]]).isSome = true ∧
    20 ≤ ((analyzeImageForAudioSettings [[(0 : ℝ)], [1]]).getD
        ⟨0, 0, 0⟩).minFreq ∧
    ((analyzeImageForAudioSettings [[(0 : ℝ)], [1]]).getD ⟨0, 0, 0⟩).minFreq
      ≤ ((analyzeImageForAudioSettings [[(0 : ℝ)], [1]]).getD
          ⟨0, 0, 0⟩).maxFreq ∧
    ((analyzeImageForAudioSettings [[(0 : ℝ)], [1]]).getD ⟨0, 0, 0⟩).maxFreq
      ≤ 20000 ∧
    (3 : ℝ) ≤ ((analyzeImageForAudioSettings [[(0 : ℝ)], [1]]).getD
        ⟨0, 0, 0⟩).duration ∧
    ((analyzeImageForAudioSettings [[(0 : ℝ)], [1]]).getD
        ⟨0, 0, 0⟩).duration ≤ 12 :=
  C10_advisor_patch_bounds [[(0 : ℝ)], [1]] (by simp) (by simp) (by
    intro row hrow x hx
    simp only [List.mem_cons, List.not_mem_nil, or_false] at hrow
    rcases hrow with rfl | rfl <;> simp_all)

theorem sampleBytes_length (s : ℝ) : (sampleBytes s).length = 2 := rfl

theorem flatMap_sampleBytes_length : ∀ samples : List ℝ,
    (samples.flatMap sampleBytes).length = 2 * samples.length
  | [] => rfl
  | s :: rest => by
    rw [List.flatMap_cons, List.length_append, sampleBytes_length,
      flatMap_sampleBytes_length rest, List.length_cons]
    ring

theorem quantize_one : quantize 1 = 32767 := by
  rw [quantize]
  simp only [min_self, max_eq_right (by norm_num : (-1 : ℝ) ≤ 1)]
  rw [if_neg (by norm_num), jsTrunc, if_neg (by norm_num)]
  norm_num

theorem quantize_neg_one : quantize (-1) = -32768 := by
  rw [quantize]
  simp only [min_eq_right (by norm_num : (-1 : ℝ) ≤ 1), max_self]
  rw [if_pos (by norm_num), jsTrunc, if_pos (by norm_num)]
  rw [show ((-1 : ℝ) * 32768) = ((-32768 : ℤ) : ℝ) by norm_num]
  exact Int.ceil_intCast _

theorem encodeWAV_example :
    encodeWAV [1, -1] 8000
      = [82, 73, 70, 70, 40, 0, 0, 0, 87, 65, 86, 69, 102, 109, 116, 32,
         16, 0, 0, 0, 1, 0, 1, 0, 64, 31, 0, 0, 128, 62, 0, 0, 2, 0, 16, 0,
         100, 97, 116, 97, 4, 0, 0, 0, 255, 127, 0, 128] := by
  rw [encodeWAV]
  norm_num [sampleBytes, quantize_one, quantize_neg_one, u32le, u16le]
  omega

/-- C3: the encoder always produces `44 + 2·sampleCount` bytes, and on the
2-sample signal [1.0, -1.0] at rate 8000 it produces exactly the 48 bytes of
the §6 layout — `RIFF`, ChunkSize 40, `WAVE`, `fmt ` of size 16, PCM format
1, 1 channel, rate 8000, ByteRate 16000, BlockAlign 2, 16 bits, `data` of
size 4 — with bytes 44-45 the little-endian int16 32767 (1.0 scaled by
32767) and bytes 46-47 the little-endian int16 -32768 (-1.0 scaled by
32768). -/
theorem C3_wav_layout :
    (∀ (samples : List ℝ) (sampleRate : ℕ),
      (encodeWAV samples sampleRate).length = 44 + 2 * samples.length) ∧
    encodeWAV [1, -1] 8000
      = [82, 73, 70, 70, 40, 0, 0, 0, 87, 65, 86, 69, 102, 109, 116, 32,
         16, 0, 0, 0, 1, 0, 1, 0, 64, 31, 0, 0, 128, 62, 0, 0, 2, 0, 16, 0,
         100, 97, 116, 97, 4, 0, 0, 0, 255, 127, 0, 128] ∧
    toInt16 255 127 = 32767 ∧ toInt16 0 128 = -32768 := by
  refine ⟨fun samples sampleRate => ?_, encodeWAV_example, by decide, by decide⟩
  simp only [encodeWAV, u32le, u16le, List.length_append, List.length_cons,
    List.length_nil]
  rw [flatMap_sampleBytes_length]

theorem quantize_mem_range (s : ℝ) :
    -32768 ≤ quantize s ∧ quantize s ≤ 32767 := by
  rw [quantize]
  have hc1 : (-1 : ℝ) ≤ max (-1) (min 1 s) := le_max_left _ _
  have hc2 : max (-1 : ℝ) (min 1 s) ≤ 1 :=
    max_le (by norm_num) (min_le_left _ _)
  split
  · next hneg =>
    rw [jsTrunc, if_pos (by nlinarith)]
    constructor
    · have : ((-32768 : ℤ) : ℝ) ≤ max (-1 : ℝ) (min 1 s) * 32768 := by
        push_cast
        nlinarith
      calc (-32768 : ℤ) = ⌈((-32768 : ℤ) : ℝ)⌉ := (Int.ceil_intCast _).symm
        _ ≤ _ := Int.ceil_le_ceil this
    · have h0 : ⌈max (-1 : ℝ) (min 1 s) * 32768⌉ ≤ 0 :=
        Int.ceil_le.mpr (by push_cast; nlinarith)
      omega
  · next hpos =>
    push_neg at hpos
    rw [jsTrunc, if_neg (by push_neg; nlinarith)]
    constructor
    · have h0 : (0 : ℤ) ≤ ⌊max (-1 : ℝ) (min 1 s) * 32767⌋ :=
        Int.le_floor.mpr (by push_cast; nlinarith)
      omega
    · have : max (-1 : ℝ) (min 1 s) * 32767 ≤ ((32767 : ℤ) : ℝ) := by
        push_cast
        nlinarith
      calc ⌊max (-1 : ℝ) (min 1 s) * 32767⌋ ≤ ⌊((32767 : ℤ) : ℝ)⌋ :=
            Int.floor_le_floor this
        _ = 32767 := Int.floor_intCast _

theorem toInt16_sampleBytes (q : ℤ) (h1 : -32768 ≤ q) (h2 : q ≤ 32767) :
    toInt16 ((q % 65536).toNat % 256) ((q % 65536).toNat / 256) = q := by
  rw [toInt16]
  omega

theorem decodeSamples_flatMap : ∀ samples : List ℝ,
    decodeSamples (samples.flatMap sampleBytes)
      = samples.map fun s =>
          if quantize s < 0 then (quantize s : ℝ) / 32768
          else (quantize s : ℝ) / 32767
  | [] => rfl
  | s :: rest => by
    rw [List.flatMap_cons, List.map_cons, ← decodeSamples_flatMap rest]
    obtain ⟨h1, h2⟩ := quantize_mem_range s
    show decodeSamples
        ((quantize s % 65536).toNat % 256 :: (quantize s % 65536).toNat / 256
          :: rest.flatMap sampleBytes) = _
    rw [decodeSamples, toInt16_sampleBytes (quantize s) h1 h2]

theorem decoded_close (s : ℝ) (hs : |s| ≤ 1) :
    |(if quantize s < 0 then (quantize s : ℝ) / 32768
        else (quantize s : ℝ) / 32767) - s| ≤ 1 / 32767 := by
  obtain ⟨hs0, hs1⟩ := abs_le.mp hs
  have hclamp : max (-1 : ℝ) (min 1 s) = s := by
    rw [min_eq_right hs1, max_eq_right hs0]
  by_cases hneg : s < 0
  · have hq : quantize s = ⌈s * 32768⌉ := by
      rw [quantize, hclamp, if_pos hneg, jsTrunc, if_pos (by nlinarith)]
    have hle : s * 32768 ≤ (⌈s * 32768⌉ : ℝ) := Int.le_ceil _
    have hlt : (⌈s * 32768⌉ : ℝ) < s * 32768 + 1 := Int.ceil_lt_add_one _
    have hq0 : ⌈s * 32768⌉ ≤ 0 := Int.ceil_le.mpr (by push_cast; nlinarith)
    rw [hq]
    by_cases hqneg : ⌈s * 32768⌉ < 0
    · rw [if_pos hqneg, abs_sub_le_iff]
      constructor <;> linarith
    · have hq00 : ⌈s * 32768⌉ = 0 := le_antisymm hq0 (not_lt.mp hqneg)
      rw [if_neg hqneg, hq00, abs_sub_le_iff]
      have : ((0 : ℤ) : ℝ) < s * 32768 + 1 := by rw [← hq00]; exact hlt
      push_cast at this ⊢
      constructor <;> linarith
  · push_neg at hneg
    have hq : quantize s = ⌊s * 32767⌋ := by
      rw [quantize, hclamp, if_neg (not_lt.mpr hneg), jsTrunc,
        if_neg (by push_neg; nlinarith)]
    have hle : (⌊s * 32767⌋ : ℝ) ≤ s * 32767 := Int.floor_le _
    have hlt : s * 32767 < (⌊s * 32767⌋ : ℝ) + 1 := Int.lt_floor_add_one _
    have hq0 : (0 : ℤ) ≤ ⌊s * 32767⌋ := Int.le_floor.mpr (by push_cast; nlinarith)
    rw [hq, if_neg (not_lt.mpr hq0), abs_sub_le_iff]
    constructor <;> linarith

theorem decodeWAV_header_eq (c0 c1 c2 c3 b0 b1 b2 b3 r0 r1 r2 r3 s0 s1 s2 s3 :
    ℕ) (rest : List ℕ) :
    decodeWAV (82 :: 73 :: 70 :: 70 :: c0 :: c1 :: c2 :: c3 ::
        87 :: 65 :: 86 :: 69 :: 102 :: 109 :: 116 :: 32 ::
        16 :: 0 :: 0 :: 0 :: 1 :: 0 :: 1 :: 0 ::
        r0 :: r1 :: r2 :: r3 :: b0 :: b1 :: b2 :: b3 ::
        2 :: 0 :: 16 :: 0 :: 100 :: 97 :: 116 :: 97 ::
        s0 :: s1 :: s2 :: s3 :: rest)
      = if s0 + 256 * s1 + 65536 * s2 + 16777216 * s3 = rest.length ∧
            rest.length % 2 = 0 then
          some (r0 + 256 * r1 + 65536 * r2 + 16777216 * r3,
            decodeSamples rest)
        else none := rfl

theorem decodeWAV_encodeWAV (samples : List ℝ) (sampleRate : ℕ)
    (hsr : sampleRate < 4294967296) (hn : 2 * samples.length < 4294967296) :
    decodeWAV (encodeWAV samples sampleRate)
      = some (sampleRate, decodeSamples (samples.flatMap sampleBytes)) := by
  rw [encodeWAV]
  simp only [u32le, u16le, List.cons_append, List.nil_append]
  norm_num only
  rw [decodeWAV_header_eq, flatMap_sampleBytes_length]
  rw [if_pos ⟨by omega, by omega⟩]
  have hsr' : sampleRate % 256 + 256 * (sampleRate / 256 % 256)
      + 65536 * (sampleRate / 65536 % 256)
      + 16777216 * (sampleRate / 16777216 % 256) = sampleRate := by omega
  rw [hsr']

/-- C4: decoding an encoded signal recovers the sample rate exactly and every
sample up to one quantization step of the asymmetric 16-bit scaling (1/32767
for non-negative samples, 1/32768 for negative ones), and decoding an empty
or non-WAV buffer yields `none` (a format error), not a crash.  The decoder
is modelled from the spec (§4.5): the repository ships only the encoder. -/
theorem C4_wav_roundtrip (samples : List ℝ) (sampleRate : ℕ)
    (hsr : sampleRate < 4294967296) (hn : 2 * samples.length < 4294967296)
    (hb : ∀ s ∈ samples, |s| ≤ 1) :
    decodeWAV (encodeWAV samples sampleRate)
      = some (sampleRate, decodeSamples (samples.flatMap sampleBytes)) ∧
    (decodeSamples (samples.flatMap sampleBytes)).length = samples.length ∧
    (∀ i, i < samples.length →
      |(decodeSamples (samples.flatMap sampleBytes)).getD i 0
          - samples.getD i 0| ≤ 1 / 32767) ∧
    decodeWAV [] = none ∧
    decodeWAV (List.replicate 48 0) = none := by
  refine ⟨decodeWAV_encodeWAV samples sampleRate hsr hn, ?_, ?_, rfl, rfl⟩
  · rw [decodeSamples_flatMap, List.length_map]
  · intro i hi
    have hmap : i < (samples.map fun s =>
        if quantize s < 0 then (quantize s : ℝ) / 32768
        else (quantize s : ℝ) / 32767).length := by
      rw [List.length_map]
      exact hi
    rw [decodeSamples_flatMap, List.getD_eq_getElem _ _ hmap,
      List.getD_eq_getElem _ _ hi, List.getElem_map]
    exact decoded_close samples[i] (hb samples[i] (List.getElem_mem hi))

/-- C4 witness: the concrete signal [1.0, -1.0] at rate 8000 round-trips:
decoding its encoding yields rate 8000 and the decoded first sample is
within 1/32767 of the original. -/
theorem C4_wav_roundtrip_witness :
    decodeWAV (encodeWAV [(1 : ℝ), -1] 8000)
      = some (8000, decodeSamples ([(1 : ℝ), -1].flatMap sampleBytes)) ∧
    |(decodeSamples ([(1 : ℝ), -1].flatMap sampleBytes)).getD 0 0
        - [(1 : ℝ), -1].getD 0 0| ≤ 1 / 32767 := by
  obtain ⟨h1, -, h3, -, -⟩ := C4_wav_roundtrip [(1 : ℝ), -1] 8000
    (by norm_num) (by norm_num) (by
      intro s hs
      simp only [List.mem_cons, List.not_mem_nil, or_false] at hs
      rcases hs with rfl | rfl <;> norm_num)
  exact ⟨h1, h3 0 (by norm_num)⟩

theorem fft_radix2_length (x : List Cpx) :
    (fft_radix2 x).length
      = if x.length ≤ 1 then x.length else 2 * (x.length / 2) := by
  rw [fft_radix2]
  split
  · rfl
  · simp only [List.length_append, List.length_map, List.length_range]
    ring

theorem filterMap_congr_some {α β : Type _} {f : α → Option β} {g : α → β} :
    ∀ l : List α, (∀ a ∈ l, f a = some (g a)) → l.filterMap f = l.map g
  | [] => fun _ => rfl
  | a :: rest => fun h => by
    rw [List.filterMap_cons, h a (List.mem_cons_self a rest), List.map_cons,
      filterMap_congr_some rest fun x hx => h x (List.mem_cons_of_mem _ hx)]

theorem numFrames_floor (L F : ℕ) (hLF : F ≤ L) :
    ⌊((L : ℝ) - (F : ℝ)) / ((F / 4 : ℕ) : ℝ)⌋ = ((L - F) / (F / 4) : ℕ) := by
  have hcast : (L : ℝ) - (F : ℝ) = ((L - F : ℕ) : ℝ) := by
    rw [Nat.cast_sub hLF]
  have hnn : (0 : ℝ) ≤ ((L - F : ℕ) : ℝ) / ((F / 4 : ℕ) : ℝ) :=
    div_nonneg (Nat.cast_nonneg _) (Nat.cast_nonneg _)
  rw [hcast, ← Int.natCast_floor_eq_floor hnn, Nat.floor_div_eq_div]

theorem spectrogramFrames_eq_map (audioBuffer : List ℝ) (F : ℕ) (hF : 4 ≤ F)
    (hLF : F ≤ audioBuffer.length) :
    spectrogramFrames audioBuffer F
      = (List.range ((audioBuffer.length - F) / (F / 4) + 1)).map fun i =>
          dbRow F ((audioBuffer.drop (i * (F / 4))).take F) := by
  simp only [spectrogramFrames]
  rw [numFrames_floor audioBuffer.length F hLF]
  rw [show ((((audioBuffer.length - F) / (F / 4) : ℕ) : ℤ) + 1).toNat
      = (audioBuffer.length - F) / (F / 4) + 1 by
    rw [← Nat.cast_one, ← Nat.cast_add, Int.toNat_natCast]]
  refine filterMap_congr_some _ fun i hi => ?_
  rw [List.mem_range] at hi
  have hstart : i * (F / 4) ≤ audioBuffer.length - F := by
    have h1 : i ≤ (audioBuffer.length - F) / (F / 4) := by omega
    calc i * (F / 4) ≤ (audioBuffer.length - F) / (F / 4) * (F / 4) :=
          Nat.mul_le_mul_right _ h1
      _ ≤ audioBuffer.length - F := Nat.div_mul_le_self _ _
  have hlen : ((audioBuffer.drop (i * (F / 4))).take F).length = F := by
    rw [List.length_take, List.length_drop]
    omega
  rw [if_neg (by rw [hlen]; exact lt_irrefl F)]

theorem dbRow_length (F k : ℕ) (hpow : F = 2 ^ k) (frame : List ℝ) :
    (dbRow F frame).length = F / 2 := by
  simp only [dbRow]
  rw [List.length_map, List.length_take, fft_radix2_length]
  simp only [List.length_map, List.length_range]
  rcases Nat.eq_zero_or_pos k with rfl | hk
  · norm_num at hpow
    subst hpow
    norm_num
  · have h2 : F = 2 * 2 ^ (k - 1) := by
      rw [hpow]
      cases k with
      | zero => omega
      | succ n => rw [pow_succ, Nat.succ_sub_one]; ring
    have hm : 1 ≤ 2 ^ (k - 1) := Nat.one_le_two_pow
    rw [if_neg (by omega)]
    omega

theorem spectrogramFrames_row_length (audioBuffer : List ℝ) (F k : ℕ)
    (hpow : F = 2 ^ k) (hF : 4 ≤ F) (hLF : F ≤ audioBuffer.length) :
    ∀ r ∈ spectrogramFrames audioBuffer F, r.length = F / 2 := by
  intro r hr
  rw [spectrogramFrames_eq_map audioBuffer F hF hLF, List.mem_map] at hr
  obtain ⟨i, -, rfl⟩ := hr
  exact dbRow_length F k hpow _

/-- C5: for a power-of-two fftSize with fftSize ≥ 4 (so that the hop
`⌊fftSize/4⌋` is positive, which the claim's formula presupposes), the
analyzer produces `(L - F) / (F/4) + 1` frames of `F/2` bins each when
`L ≥ F`, and no frames at all when `L < F`. -/
theorem C5_spectrogram_shape (audioBuffer : List ℝ) (fftSize k : ℕ)
    (hpow : fftSize = 2 ^ k) (h4 : 4 ≤ fftSize) :
    (fftSize ≤ audioBuffer.length →
      (spectrogramFrames audioBuffer fftSize).length
        = (audioBuffer.length - fftSize) / (fftSize / 4) + 1 ∧
      ∀ r ∈ spectrogramFrames audioBuffer fftSize,
        r.length = fftSize / 2) ∧
    (audioBuffer.length < fftSize →
      spectrogramFrames audioBuffer fftSize = []) := by
  constructor
  · intro hLF
    refine ⟨?_, spectrogramFrames_row_length audioBuffer fftSize k hpow h4 hLF⟩
    rw [spectrogramFrames_eq_map audioBuffer fftSize h4 hLF,
      List.length_map, List.length_range]
  · intro hLF
    simp only [spectrogramFrames]
    have hhop : 0 < fftSize / 4 := Nat.div_pos h4 (by norm_num)
    have hneg : ((audioBuffer.length : ℝ) - (fftSize : ℝ))
        / ((fftSize / 4 : ℕ) : ℝ) < 0 := by
      apply div_neg_of_neg_of_pos
      · have h : (audioBuffer.length : ℝ) < fftSize := by exact_mod_cast hLF
        linarith
      · exact_mod_cast hhop
    have hfl : ⌊((audioBuffer.length : ℝ) - (fftSize : ℝ))
        / ((fftSize / 4 : ℕ) : ℝ)⌋ < 0 := Int.floor_lt.mpr (by
      push_cast
      exact hneg)
    have h0 : (⌊((audioBuffer.length : ℝ) - (fftSize : ℝ))
        / ((fftSize / 4 : ℕ) : ℝ)⌋ + 1).toNat = 0 := by omega
    rw [h0]
    rfl

/-- C5 witness: a length-5 signal at fftSize 4 yields 2 frames; a length-3
signal yields none. -/
theorem C5_spectrogram_shape_witness :
    (spectrogramFrames (List.replicate 5 (0 : ℝ)) 4).length = 2 ∧
    spectrogramFrames (List.replicate 3 (0 : ℝ)) 4 = [] := by
  constructor
  · have h := ((C5_spectrogram_shape (List.replicate 5 (0 : ℝ)) 4 2
      (by norm_num) (by norm_num)).1 (by simp)).1
    rw [h]
    simp
  · exact (C5_spectrogram_shape (List.replicate 3 (0 : ℝ)) 4 2
      (by norm_num) (by norm_num)).2 (by simp)

theorem computeSpectrogramData_data_of_cons (audioBuffer : List ℝ)
    (F : ℕ) (r0 : List ℝ) (rest : List (List ℝ))
    (heq : spectrogramFrames audioBuffer F = r0 :: rest) :
    (computeSpectrogramData audioBuffer F).1
      = ((List.range r0.length).map fun c =>
          (r0 :: rest).map fun (row : List ℝ) => row.getD c 0).reverse := by
  simp only [computeSpectrogramData, heq]

/-- C6: the returned SpectrogramMatrix is the frame-major dB matrix
transposed to bin-major and then reversed along the frequency axis: it has
`F/2` rows, and row `b` lists bin `F/2 - 1 - b` across all frames, so row 0
is the highest-frequency bin and the last row is bin 0. -/
theorem C6_axis_orientation (audioBuffer : List ℝ) (fftSize k : ℕ)
    (hpow : fftSize = 2 ^ k) (h4 : 4 ≤ fftSize)
    (hLF : fftSize ≤ audioBuffer.length) :
    ((computeSpectrogramData audioBuffer fftSize).1).length = fftSize / 2 ∧
    ∀ b, b < fftSize / 2 →
      ((computeSpectrogramData audioBuffer fftSize).1).getD b []
        = (spectrogramFrames audioBuffer fftSize).map
            (fun row => row.getD (fftSize / 2 - 1 - b) 0) := by
  have hlen0 : (spectrogramFrames audioBuffer fftSize).length
      = (audioBuffer.length - fftSize) / (fftSize / 4) + 1 := by
    rw [spectrogramFrames_eq_map audioBuffer fftSize h4 hLF,
      List.length_map, List.length_range]
  have hrows := spectrogramFrames_row_length audioBuffer fftSize k hpow h4 hLF
  obtain ⟨r0, rest, heq⟩ :=
    List.exists_cons_of_ne_nil (l := spectrogramFrames audioBuffer fftSize)
      (by intro hnil; rw [hnil] at hlen0; simp at hlen0)
  have hr0len : r0.length = fftSize / 2 :=
    hrows r0 (heq ▸ List.mem_cons_self r0 rest)
  have hdata := computeSpectrogramData_data_of_cons audioBuffer fftSize
    r0 rest heq
  rw [hdata, hr0len]
  have hTlen : ((List.range (fftSize / 2)).map fun c =>
      (r0 :: rest).map fun (row : List ℝ) => row.getD c 0).length
        = fftSize / 2 := by
    rw [List.length_map, List.length_range]
  constructor
  · rw [List.length_reverse, hTlen]
  · intro b hb
    have hbrev : b < ((List.range (fftSize / 2)).map fun c =>
        (r0 :: rest).map fun (row : List ℝ) => row.getD c 0).reverse.length := by
      rw [List.length_reverse, hTlen]
      exact hb
    rw [List.getD_eq_getElem _ _ hbrev, List.getElem_reverse]
    simp only [List.getElem_map, List.getElem_range, hTlen, List.length_map,
      List.length_range]
    rw [heq]

/-- C6 witness: 4 zero samples at fftSize 4 yield a 2-row matrix whose first
row is bin 1 (the top bin) across frames. -/
theorem C6_axis_orientation_witness :
    ((computeSpectrogramData (List.replicate 4 (0 : ℝ)) 4).1).length = 2 ∧
    ((computeSpectrogramData (List.replicate 4 (0 : ℝ)) 4).1).getD 0 []
      = (spectrogramFrames (List.replicate 4 (0 : ℝ)) 4).map
          (fun row => row.getD 1 0) := by
  obtain ⟨h1, h2⟩ := C6_axis_orientation (List.replicate 4 (0 : ℝ)) 4 2
    (by norm_num) (by norm_num) (by simp)
  refine ⟨by rw [h1], ?_⟩
  have h := h2 0 (by norm_num)
  simpa using h

theorem freqs_getD_fin (H r : ℕ) (minFreq maxFreq : ℝ)
    (hH : 2 ≤ H) (hr : r < H) :
    (freqs H minFreq maxFreq).getD r .nan
      = .fin (maxFreq + -((r : ℝ) / ((H : ℝ) - 1) * (maxFreq + -minFreq))) := by
  have hne : ((H : ℝ) - 1) ≠ 0 := by
    have h2 : (2 : ℝ) ≤ (H : ℝ) := by exact_mod_cast hH
    linarith
  have hlen : r < (freqs H minFreq maxFreq).length := by
    simp only [freqs, List.length_map, List.length_range]
    exact hr
  rw [List.getD_eq_getElem _ _ hlen]
  simp only [freqs, List.getElem_map, List.getElem_range]
  simp only [JSVal.sub, JSVal.neg, JSVal.div, hne, if_false, JSVal.mul,
    JSVal.add]

theorem waveSample_fin (waveShape : WaveShape) (a t : ℝ) :
    ∃ z, waveSample waveShape (.fin a) (.fin t) = .fin z := by
  have hsin1 : ¬(Real.sin (2 * Real.pi * a * t) < -1 ∨
      1 < Real.sin (2 * Real.pi * a * t)) := by
    push_neg
    exact ⟨Real.neg_one_le_sin _, Real.sin_le_one _⟩
  cases waveShape with
  | sin => exact ⟨_, rfl⟩
  | square =>
    by_cases h : JSVal.ge (JSVal.sin (JSVal.mul
        (JSVal.mul (.fin (2 * Real.pi)) (.fin a)) (.fin t))) (.fin 0) = true
    · exact ⟨1, by simp only [waveSample, if_pos h]⟩
    · exact ⟨-1, by
        simp only [waveSample]
        rw [if_neg (by simp only [h]; exact Bool.false_ne_true)]⟩
  | sawtooth => exact ⟨_, rfl⟩
  | triangle =>
    simp only [waveSample, JSVal.mul, JSVal.sin, JSVal.asin]
    rw [if_neg hsin1]
    exact ⟨_, rfl⟩

theorem columnSample_fin (imageArray : List (List ℝ)) (frs : List JSVal)
    (waveShape : WaveShape) (sampleRate : ℝ) (col t_idx : ℕ)
    (hsr : sampleRate ≠ 0)
    (hfrs : ∀ row, row < imageArray.length →
      ∃ x, frs.getD row .nan = .fin x) :
    ∃ y, columnSample imageArray frs waveShape sampleRate col t_idx
      = .fin y := by
  simp only [columnSample]
  rw [show JSVal.div (.fin ((t_idx : ℕ) : ℝ)) (.fin sampleRate)
      = .fin ((t_idx : ℝ) / sampleRate) by simp [JSVal.div, hsr]]
  have aux : ∀ (l : List ℕ), (∀ r ∈ l, r < imageArray.length) →
      ∀ y : ℝ, ∃ z, l.foldl
        (fun sample row =>
          if 0 < (imageArray.getD row []).getD col 0 then
            JSVal.add sample
              (JSVal.mul (.fin ((imageArray.getD row []).getD col 0))
                (waveSample waveShape (frs.getD row .nan)
                  (.fin ((t_idx : ℝ) / sampleRate))))
          else sample)
        (.fin y) = .fin z := by
    intro l
    induction l with
    | nil => exact fun _ y => ⟨y, rfl⟩
    | cons r rest ih =>
      intro hl y
      rw [List.foldl_cons]
      by_cases hamp : 0 < (imageArray.getD r []).getD col 0
      · rw [if_pos hamp]
        obtain ⟨fx, hfx⟩ := hfrs r (hl r (List.mem_cons_self r rest))
        obtain ⟨w, hw⟩ := waveSample_fin waveShape fx ((t_idx : ℝ) / sampleRate)
        rw [hfx, hw,
          show JSVal.mul (.fin ((imageArray.getD r []).getD col 0)) (.fin w)
            = .fin ((imageArray.getD r []).getD col 0 * w) from rfl,
          show JSVal.add (.fin y)
              (.fin ((imageArray.getD r []).getD col 0 * w))
            = .fin (y + (imageArray.getD r []).getD col 0 * w) from rfl]
        exact ih (fun x hx => hl x (List.mem_cons_of_mem _ hx)) _
      · rw [if_neg hamp]
        exact ih (fun x hx => hl x (List.mem_cons_of_mem _ hx)) y
  exact aux (List.range imageArray.length)
    (fun r hr => List.mem_range.mp hr) 0

theorem rawSignal_fin (imageArray : List (List ℝ))
    (sampleRate durationPerColumn minFreq maxFreq : ℝ) (waveShape : WaveShape)
    (hH : 2 ≤ imageArray.length) (hsr : sampleRate ≠ 0) :
    ∀ s ∈ rawSignal imageArray sampleRate durationPerColumn minFreq maxFreq
      waveShape, ∃ x, s = .fin x := by
  intro s hs
  simp only [rawSignal, List.mem_flatMap, List.mem_map, List.mem_range] at hs
  obtain ⟨col, -, t_idx, -, rfl⟩ := hs
  exact columnSample_fin imageArray _ waveShape sampleRate col t_idx hsr
    fun row hrow => ⟨_, freqs_getD_fin imageArray.length row minFreq maxFreq
      hH hrow⟩

theorem maxAbs_foldl_div : ∀ (l : List JSVal) (c d a : ℝ), 0 < a →
    (∀ s ∈ l, ∃ x, s = .fin x) →
    l.foldl (fun m s => if JSVal.gt (JSVal.abs s) m then JSVal.abs s else m)
      (.fin c) = .fin d →
    (l.map fun s => JSVal.div s (.fin a)).foldl
      (fun m s => if JSVal.gt (JSVal.abs s) m then JSVal.abs s else m)
      (.fin (c / a)) = .fin (d / a)
  | [], c, d, a => fun _ _ h => by
    simp only [List.foldl_nil] at h
    simp only [List.map_nil, List.foldl_nil]
    obtain rfl : c = d := by injection h
    rfl
  | s :: rest, c, d, a => fun ha hfin h => by
    obtain ⟨x, rfl⟩ := hfin s (List.mem_cons_self s rest)
    have hstep : (if JSVal.gt (JSVal.abs (.fin x)) (.fin c) then
        JSVal.abs (.fin x) else .fin c) = .fin (if c < |x| then |x| else c) := by
      simp only [JSVal.abs, JSVal.gt, decide_eq_true_eq, apply_ite JSVal.fin]
    rw [List.foldl_cons, hstep] at h
    have habs : |x / a| = |x| / a := by rw [abs_div, abs_of_pos ha]
    have hcond : (c / a < |x| / a) = (c < |x|) :=
      propext (div_lt_div_iff_of_pos_right ha)
    have hstep2 : (if JSVal.gt (JSVal.abs (.fin (x / a))) (.fin (c / a)) then
        JSVal.abs (.fin (x / a)) else .fin (c / a))
          = .fin ((if c < |x| then |x| else c) / a) := by
      rw [apply_ite (fun y : ℝ => y / a), apply_ite JSVal.fin]
      simp only [JSVal.abs, JSVal.gt, decide_eq_true_eq, habs, hcond]
    rw [List.map_cons, List.foldl_cons,
      show JSVal.div (.fin x) (.fin a) = .fin (x / a) by
        simp [JSVal.div, ha.ne'],
      hstep2]
    exact maxAbs_foldl_div rest (if c < |x| then |x| else c) d a ha
      (fun t ht => hfin t (List.mem_cons_of_mem _ ht)) h

/-- C1 counterexample: the 2×1 matrix [[1], [1]] (both cells positive) with
the valid positive settings sampleRate 1, durationPerColumn 1 and
minFreq = maxFreq = 1 produces one sine sample, taken at time 0 where
`sin 0 = 0`; the signal is [0], its peak is 0 and not 1 (the guard
`maxAmplitude > 0` skips normalization for the silent signal). -/
theorem C1_peak_counterexample :
    generateAudioFromImage [[(1 : ℝ)], [1]] 1 1 1 1 WaveShape.sin
      = [JSVal.fin 0] ∧
    maxAbsJS (generateAudioFromImage [[(1 : ℝ)], [1]] 1 1 1 1 WaveShape.sin)
      ≠ JSVal.fin 1 := by
  have hgen : generateAudioFromImage [[(1 : ℝ)], [1]] 1 1 1 1 WaveShape.sin
      = [JSVal.fin 0] := by
    norm_num [generateAudioFromImage, rawSignal, columnSample, freqs,
      waveSample, maxAbsJS, JSVal.div, JSVal.mul, JSVal.add, JSVal.sub,
      JSVal.neg, JSVal.sin, JSVal.abs, JSVal.gt, List.range_succ,
      Real.sin_zero]
  refine ⟨hgen, ?_⟩
  rw [hgen]
  intro hcontra
  have h01 : (0 : ℝ) = 1 := by
    have := hcontra
    norm_num [maxAbsJS, JSVal.abs, JSVal.gt] at this
  norm_num at h01

/-- C1 (amended): whenever the pre-normalization signal has a positive
maximum amplitude (and the matrix has at least two rows so every row
frequency is finite, and the sample rate is positive), the returned signal's
maximum absolute sample — computed exactly as the source computes its running
maximum — is exactly 1.  A matrix with a nonzero cell does not suffice: all
sampled oscillator values can vanish simultaneously (see the
counterexample), in which case the signal stays all zeros. -/
theorem C1_peak_normalization (imageArray : List (List ℝ))
    (sampleRate durationPerColumn minFreq maxFreq : ℝ)
    (waveShape : WaveShape) (a : ℝ) (hH : 2 ≤ imageArray.length)
    (hsr : 0 < sampleRate)
    (hmax : maxAbsJS (rawSignal imageArray sampleRate durationPerColumn
      minFreq maxFreq waveShape) = .fin a) (ha : 0 < a) :
    maxAbsJS (generateAudioFromImage imageArray sampleRate durationPerColumn
      minFreq maxFreq waveShape) = .fin 1 := by
  have hfin := rawSignal_fin imageArray sampleRate durationPerColumn minFreq
    maxFreq waveShape hH hsr.ne'
  have hwidth : (imageArray.headD []).length ≠ 0 := by
    intro hw
    have hraw0 : rawSignal imageArray sampleRate durationPerColumn minFreq
        maxFreq waveShape = [] := by
      simp only [rawSignal, hw, List.range_zero, List.flatMap_nil]
    rw [hraw0] at hmax
    simp only [maxAbsJS, List.foldl_nil] at hmax
    have h0a : (0 : ℝ) = a := by injection hmax
    linarith
  simp only [generateAudioFromImage]
  rw [if_neg (by push_neg; exact ⟨hwidth, by omega⟩)]
  rw [hmax]
  rw [if_pos (by simp [JSVal.gt, ha])]
  have hkey := maxAbs_foldl_div
    (rawSignal imageArray sampleRate durationPerColumn minFreq maxFreq
      waveShape) 0 a a ha hfin hmax
  simp only [maxAbsJS]
  rw [zero_div] at hkey
  rw [hkey, div_self ha.ne']

/-- C1 witness: the 2×1 matrix [[1], [1]] with a square wave at sampleRate 1
produces the one-sample signal [2] pre-normalization, and the normalized
signal has maximum absolute sample exactly 1. -/
theorem C1_peak_normalization_witness :
    maxAbsJS (generateAudioFromImage [[(1 : ℝ)], [1]] 1 1 1 2
      WaveShape.square) = JSVal.fin 1 := by
  have hmax : maxAbsJS (rawSignal [[(1 : ℝ)], [1]] 1 1 1 2 WaveShape.square)
      = JSVal.fin 2 := by
    norm_num [rawSignal, columnSample, freqs, waveSample, maxAbsJS,
      JSVal.div, JSVal.mul, JSVal.add, JSVal.sub, JSVal.neg, JSVal.sin,
      JSVal.abs, JSVal.gt, JSVal.ge, List.range_succ, Real.sin_zero]
  exact C1_peak_normalization [[(1 : ℝ)], [1]] 1 1 1 2 WaveShape.square 2
    (by norm_num) (by norm_num) hmax (by norm_num)
